import Mathlib

/-!
A verification development for the `ini_parser` single-header C library
(`ini_parser.h`).  The C code is modelled shallowly: C strings become
`List Char` (with explicit handling of the terminating NUL where the C code
depends on it), the linked chains of sections and key/value nodes become
Lean lists, and the scanning loops become fuel-indexed structural
recursions (each loop iteration consumes at least one input character, so
fuel equal to the input length is always sufficient; the zero-fuel result
coincides with the empty-input result of each loop).
-/

/-- `INI_MAX_LINE_LENGTH` from `ini_parser.h` (default configuration). -/
def INI_MAX_LINE_LENGTH : Nat := 256

/-- C `isspace` in the default locale, restricted to the byte range the
library feeds it: space, tab, newline, vertical tab, form feed, carriage
return. -/
def ini_isspace (c : Char) : Bool :=
  c == ' ' || c == '\t' || c == '\n' || c == '\x0b' || c == '\x0c' || c == '\r'

/-- Byte-wise ASCII lower-casing, as `tolower` behaves on ASCII in the C
locale; used to model `strcasecmp`. -/
def ini_tolower (c : Char) : Char :=
  if 'A' ≤ c ∧ c ≤ 'Z' then Char.ofNat (c.toNat + 32) else c

/-- The `STRCOMPARE(x, y) == 0` test of `ini_parser.h` in the default
configuration (`strcasecmp`: equality up to byte-wise ASCII case). -/
def strCaseEq (a b : List Char) : Bool :=
  a.map ini_tolower == b.map ini_tolower

/-- `trimWhitespace` from `ini_parser.h`: removes leading and trailing
`isspace` characters, in place in C; functionally here. -/
def trimWhitespace (s : List Char) : List Char :=
  ((s.dropWhile ini_isspace).reverse.dropWhile ini_isspace).reverse

/-- `ini_linetype_t` from `ini_parser.h`, with the substrings that
`parseLine` stores through its out-parameters attached to the
constructors that produce them. -/
inductive IniLineType where
  | EMPTY
  | SECTION (name : List Char)
  | KEY_VALUE (key value : List Char)
  | COMMENT
  | INVALID
deriving DecidableEq

/-- `parseLine` from `ini_parser.h`.  The C function receives a
NUL-terminated buffer, so the model first cuts the list at the first NUL
character; every scanning loop of the C code stops at NUL, `']'`-or-newline,
separator, or end of value exactly as modelled below.  The extracted
section/key/value substrings are each truncated to
`INI_MAX_LINE_LENGTH - 1` characters before trimming, as the C `memcpy`
bounds do. -/
def parseLine (line0 : List Char) : IniLineType :=
  let line1 := line0.takeWhile (fun c => c != '\x00')
  match line1.dropWhile ini_isspace with
  | [] => .EMPTY
  | c :: rest =>
    if c = ';' ∨ c = '#' then .COMMENT
    else if c = '[' then
      let inner := rest.takeWhile (fun d => !(d == ']' || d == '\n'))
      match rest.drop inner.length with
      | ']' :: _ =>
        let name := trimWhitespace (inner.take (INI_MAX_LINE_LENGTH - 1))
        if name = [] then .INVALID else .SECTION name
      | _ => .INVALID
    else
      let l := c :: rest
      let keyPart := l.takeWhile (fun d => !(d == '=' || d == ':'))
      match l.drop keyPart.length with
      | [] => .INVALID
      | _ :: afterSep =>
        let key := trimWhitespace (keyPart.take (INI_MAX_LINE_LENGTH - 1))
        if key = [] then .INVALID
        else
          let v0 := afterSep.dropWhile ini_isspace
          let vraw := v0.takeWhile (fun d => !(d == '\r' || d == '\n'))
          .KEY_VALUE key (trimWhitespace (vraw.take (INI_MAX_LINE_LENGTH - 1)))

/-- The line-classification algorithm exactly as the specification words it
(§4.2 of the spec / claim C3): skip leading whitespace; empty → EMPTY;
`;`/`#` → COMMENT; `[` → section with the trimmed text before the first
`]`, INVALID when no `]` occurs before line end or the trimmed name is
empty; otherwise the separator is the first `=` or `:` (whichever comes
first), no separator → INVALID, empty trimmed key → INVALID, and the value
is the text after the separator trimmed only of surrounding whitespace. -/
def parseLineSpec (line : List Char) : IniLineType :=
  match line.dropWhile ini_isspace with
  | [] => .EMPTY
  | c :: rest =>
    if c = ';' ∨ c = '#' then .COMMENT
    else if c = '[' then
      if ']' ∈ rest then
        let name := trimWhitespace (rest.takeWhile (fun d => !(d == ']')))
        if name = [] then .INVALID else .SECTION name
      else .INVALID
    else
      let l := c :: rest
      let keyPart := l.takeWhile (fun d => !(d == '=' || d == ':'))
      if keyPart.length = l.length then .INVALID
      else
        let key := trimWhitespace keyPart
        if key = [] then .INVALID
        else .KEY_VALUE key (trimWhitespace (l.drop (keyPart.length + 1)))

/-- `ini_keyvalue_t` from `ini_parser.h` (the `next` link becomes list
structure). -/
structure INIKeyValue where
  key : List Char
  value : List Char
deriving DecidableEq

/-- `ini_section_t` from `ini_parser.h`. -/
structure INISection where
  name : List Char
  keyValues : List INIKeyValue
deriving DecidableEq

/-- `ini_context_t` from `ini_parser.h`; `content` is `none` when the C
pointer is NULL. -/
structure INIContext where
  content : Option (List Char)
  sections : List INISection
deriving DecidableEq

/-- The line-scanning loop bound of ini_initialize:
`while(*ptr && *ptr != '\n' && *ptr != '\r' && len < INI_MAX_LINE_LENGTH)`.
Takes characters satisfying `p`, at most `n` of them. -/
def takeWhileUpTo (p : Char → Bool) : Nat → List Char → List Char
  | _, [] => []
  | n, c :: t => if 0 < n ∧ p c then c :: takeWhileUpTo p (n - 1) t else []

/-- One iteration of the line extraction in ini_initialize
(`ini_parser.h`, lines 251-268 and 342-350): scan up to
`INI_MAX_LINE_LENGTH` characters stopping at NUL or a line terminator,
drop a trailing `'\r'` from the scanned text (unreachable, since the scan
never takes `'\r'`, but present in the C code), then advance past one
character (`if(*ptr) ptr++`, which skips a non-terminator character when
the scan stopped at the length cap) and past any run of terminators.
Returns the logical line and the remaining input. -/
def iniExtractLine (ptr : List Char) : List Char × List Char :=
  let scan := takeWhileUpTo (fun c => !(c == '\x00' || c == '\n' || c == '\r'))
    INI_MAX_LINE_LENGTH ptr
  let line := match scan.getLast? with
    | some '\r' => scan.dropLast
    | _ => scan
  let rest1 := match ptr.drop scan.length with
    | [] => []
    | c :: t => if c = '\x00' then c :: t else t
  (line, rest1.dropWhile (fun c => c == '\n' || c == '\r'))

/-- Append a key/value node at the tail of the key/value chain of the last
section.  In ini_initialize, `currentSection` always points at the most
recently appended section, i.e. the tail of the section chain, so the
`while(last->next)` walk appends to the last section's list. -/
def iniAddKVLast (sections : List INISection) (kv : INIKeyValue) : List INISection :=
  match sections with
  | [] => []
  | [s] => [{ s with keyValues := s.keyValues ++ [kv] }]
  | s :: rest => s :: iniAddKVLast rest kv

/-- The `while(*ptr)` loop of ini_initialize, fuel-indexed.  Each
iteration consumes at least one character, so fuel equal to the input
length suffices; the zero-fuel fallback equals the `*ptr == '\0'` exit.
State: the section chain, whether `currentSection` is non-NULL, and
`has_valid_entries`.  The `strncpy` bounds of the C code are kept as
`take`s (they never truncate, since `parseLine` outputs are shorter). -/
def iniBuildLoop : Nat → List Char → List INISection → Bool → Bool → List INISection × Bool
  | 0, _, sections, _, hasValid => (sections, hasValid)
  | fuel + 1, ptr, sections, hasCur, hasValid =>
    match ptr with
    | [] => (sections, hasValid)
    | c :: t =>
      if c = '\x00' then (sections, hasValid)
      else
        let p := iniExtractLine (c :: t)
        match parseLine p.1 with
        | .SECTION name =>
          iniBuildLoop fuel p.2
            (sections ++ [⟨name.take INI_MAX_LINE_LENGTH, []⟩]) true true
        | .KEY_VALUE key value =>
          if hasCur then
            iniBuildLoop fuel p.2
              (iniAddKVLast sections
                ⟨key.take (INI_MAX_LINE_LENGTH - 1), value.take (INI_MAX_LINE_LENGTH - 1)⟩)
              true true
          else iniBuildLoop fuel p.2 sections hasCur hasValid
        | _ => iniBuildLoop fuel p.2 sections hasCur hasValid

/-- The logical lines that the ini_initialize loop classifies, in order
(same scanning recursion as `iniBuildLoop`). -/
def iniLines : Nat → List Char → List (List Char)
  | 0, _ => []
  | fuel + 1, ptr =>
    match ptr with
    | [] => []
    | c :: t =>
      if c = '\x00' then []
      else (iniExtractLine (c :: t)).1 :: iniLines fuel (iniExtractLine (c :: t)).2

/-- The logical lines the builder classifies in a given buffer. -/
def iniBuildLines (content : List Char) : List (List Char) :=
  iniLines content.length content

/-- Claim-language predicate: some line is classified as a SECTION, or as
a KEY_VALUE that is attachable (a section header has already been seen —
the `hasCur` argument carries that context into the scan, `false` at the
start of a buffer).  A KEY_VALUE line seen before any section header does
not count. -/
def hasStructural (hasCur : Bool) : List (List Char) → Bool
  | [] => false
  | l :: ls =>
    match parseLine l with
    | .SECTION _ => true
    | .KEY_VALUE _ _ => hasCur || hasStructural hasCur ls
    | _ => hasStructural hasCur ls

/-- `ini_cleanup` from `ini_parser.h`: frees the content copy and walks the
section chain freeing every key/value node and section node, then NULLs
both fields.  On the explicit state of the context this is the constant
empty context. -/
def ini_cleanup (_ctx : INIContext) : INIContext :=
  { content := none, sections := [] }

/-- ini_initialize from `ini_parser.h`.  The C function takes
`(ctx, content, length)` and mutates `ctx`; here it returns the flag and
the new context state.  `length == 0` (empty buffer) fails without
touching the caller's context; otherwise the buffer is copied,
NUL-terminated and scanned, and when no valid entry was found the
partially built context is torn down with `ini_cleanup` before failing.
The NULL-pointer guards of the C code have no counterpart on Lean values. -/
def ini_initialize (ctx : INIContext) (content : List Char) : Bool × INIContext :=
  if content = [] then (false, ctx)
  else
    let r := iniBuildLoop content.length content [] false false
    if r.2 then (true, { content := some content, sections := r.1 })
    else (false, ini_cleanup { content := some content, sections := r.1 })

/-- The section-chain walk of `ini_hasSection`. -/
def iniHasSectionList : List INISection → List Char → Bool
  | [], _ => false
  | s :: rest, sec => if strCaseEq s.name sec then true else iniHasSectionList rest sec

/-- `ini_hasSection` from `ini_parser.h`. -/
def ini_hasSection (ctx : INIContext) (sec : List Char) : Bool :=
  iniHasSectionList ctx.sections sec

/-- The key/value-chain walk of `ini_hasKey`. -/
def iniHasKeyKVs : List INIKeyValue → List Char → Bool
  | [], _ => false
  | kv :: rest, key => if strCaseEq kv.key key then true else iniHasKeyKVs rest key

/-- The section-chain walk of `ini_hasKey`: the first section whose name
matches is searched and the walk returns from inside that section. -/
def iniHasKeySections : List INISection → List Char → List Char → Bool
  | [], _, _ => false
  | s :: rest, sec, key =>
    if strCaseEq s.name sec then iniHasKeyKVs s.keyValues key
    else iniHasKeySections rest sec key

/-- `ini_hasKey` from `ini_parser.h`. -/
def ini_hasKey (ctx : INIContext) (sec key : List Char) : Bool :=
  iniHasKeySections ctx.sections sec key

/-- The key/value-chain walk of `ini_getValue`: every matching node
overwrites the output buffer (`strncpy` bounded by `maxLen` followed by
forced NUL at `maxLen - 1`, i.e. the first `maxLen - 1` characters), so
the last match wins; `acc` is the value written so far (`none` while
`found` is still false). -/
def iniGetValueKVs : List INIKeyValue → List Char → Nat → Option (List Char) → Option (List Char)
  | [], _, _, acc => acc
  | kv :: rest, key, maxLen, acc =>
    if strCaseEq kv.key key then
      iniGetValueKVs rest key maxLen (some (kv.value.take (maxLen - 1)))
    else iniGetValueKVs rest key maxLen acc

/-- The section-chain walk of `ini_getValue`: the walk returns from inside
the first section whose name matches. -/
def iniGetValueSections : List INISection → List Char → List Char → Nat → Option (List Char)
  | [], _, _, _ => none
  | s :: rest, sec, key, maxLen =>
    if strCaseEq s.name sec then iniGetValueKVs s.keyValues key maxLen none
    else iniGetValueSections rest sec key maxLen

/-- `ini_getValue` from `ini_parser.h`; `none` models returning `false`
(no value written is observable), `some v` models returning `true` with
`v` in the caller's buffer. -/
def ini_getValue (ctx : INIContext) (sec key : List Char) (maxLen : Nat) : Option (List Char) :=
  if maxLen = 0 then none else iniGetValueSections ctx.sections sec key maxLen

/-- `ini_hasValue` from `ini_parser.h`: `ini_getValue` into an
`INI_MAX_LINE_LENGTH` buffer succeeded and the value is non-empty. -/
def ini_hasValue (ctx : INIContext) (sec key : List Char) : Bool :=
  match ini_getValue ctx sec key INI_MAX_LINE_LENGTH with
  | some v => !v.isEmpty
  | none => false

/-- `ini_eventtype_t` from `ini_parser.h`, with the payload strings the
handler receives for each event kind: SECTION carries the cached
`current_section`, KEY_VALUE carries `(current_section, key, value)`,
COMMENT and ERROR carry the raw (truncated) line as the handler reads it
(a C string, hence cut at the first NUL). -/
inductive IniEvent where
  | SECTION (sec : List Char)
  | KEY_VALUE (sec key value : List Char)
  | COMMENT (line : List Char)
  | ERROR (line : List Char)
deriving DecidableEq

/-- One iteration of the line extraction in `ini_parse_stream`
(`ini_parser.h`, lines 508-531): scan to the next terminator with no
length cap (the cap is applied later, only to the copied text), then skip
the run of terminators.  Unlike the builder, the scan is bounded by the
declared length, not by a NUL. -/
def iniStreamExtract (ptr : List Char) : List Char × List Char :=
  let raw := ptr.takeWhile (fun c => !(c == '\n' || c == '\r'))
  (raw, (ptr.drop raw.length).dropWhile (fun c => c == '\n' || c == '\r'))

/-- The `while(ptr < end)` loop of `ini_parse_stream`, fuel-indexed (fuel
equal to the input length suffices; the zero-fuel result equals the
`ptr == end` exit).  `h` is the caller's `ini_handler` with the opaque
`userdata` made explicit as state of type `σ`; `curSec` is
`current_section`.  Zero-length raw lines are skipped without any handler
call; otherwise the raw line is truncated to `INI_MAX_LINE_LENGTH - 1`
characters, classified, and dispatched; a `false` from the handler makes
the whole call return `false` immediately. -/
def iniStreamLoop {σ : Type} (h : IniEvent → σ → Bool × σ) :
    Nat → List Char → List Char → σ → Bool × σ
  | 0, _, _, u => (true, u)
  | fuel + 1, ptr, curSec, u =>
    match ptr with
    | [] => (true, u)
    | c :: t =>
      let p := iniStreamExtract (c :: t)
      if p.1 = [] then iniStreamLoop h fuel p.2 curSec u
      else
        let line := p.1.take (INI_MAX_LINE_LENGTH - 1)
        match parseLine line with
        | .SECTION name =>
          let cur := name.take INI_MAX_LINE_LENGTH
          let r := h (.SECTION cur) u
          if r.1 then iniStreamLoop h fuel p.2 cur r.2 else (false, r.2)
        | .KEY_VALUE key value =>
          let r := h (.KEY_VALUE curSec key value) u
          if r.1 then iniStreamLoop h fuel p.2 curSec r.2 else (false, r.2)
        | .COMMENT =>
          let r := h (.COMMENT (line.takeWhile (fun d => d != '\x00'))) u
          if r.1 then iniStreamLoop h fuel p.2 curSec r.2 else (false, r.2)
        | .INVALID =>
          let r := h (.ERROR (line.takeWhile (fun d => d != '\x00'))) u
          if r.1 then iniStreamLoop h fuel p.2 curSec r.2 else (false, r.2)
        | .EMPTY => iniStreamLoop h fuel p.2 curSec u

/-- `ini_parse_stream` from `ini_parser.h`; `current_section` starts
empty.  `true` is the "completed" result, `false` the "aborted" one.  The
NULL-pointer guards of the C code have no counterpart on Lean values. -/
def ini_parse_stream {σ : Type} (content : List Char)
    (h : IniEvent → σ → Bool × σ) (u : σ) : Bool × σ :=
  iniStreamLoop h content.length content [] u

/-- The full event sequence `ini_parse_stream` would dispatch on a buffer
if no callback aborted: the same scanning recursion as `iniStreamLoop`,
collecting events instead of calling the handler. -/
def iniStreamEvents : Nat → List Char → List Char → List IniEvent
  | 0, _, _ => []
  | fuel + 1, ptr, curSec =>
    match ptr with
    | [] => []
    | c :: t =>
      let p := iniStreamExtract (c :: t)
      if p.1 = [] then iniStreamEvents fuel p.2 curSec
      else
        let line := p.1.take (INI_MAX_LINE_LENGTH - 1)
        match parseLine line with
        | .SECTION name =>
          .SECTION (name.take INI_MAX_LINE_LENGTH) ::
            iniStreamEvents fuel p.2 (name.take INI_MAX_LINE_LENGTH)
        | .KEY_VALUE key value =>
          .KEY_VALUE curSec key value :: iniStreamEvents fuel p.2 curSec
        | .COMMENT =>
          .COMMENT (line.takeWhile (fun d => d != '\x00')) :: iniStreamEvents fuel p.2 curSec
        | .INVALID =>
          .ERROR (line.takeWhile (fun d => d != '\x00')) :: iniStreamEvents fuel p.2 curSec
        | .EMPTY => iniStreamEvents fuel p.2 curSec

/-- The events of a whole buffer (fuel instantiated as in
`ini_parse_stream`). -/
def iniEventsOf (content : List Char) : List IniEvent :=
  iniStreamEvents content.length content []

/-- Folding a handler over an event list with early exit on `false`:
the dispatch loop factored through its event sequence. -/
def foldHandler {σ : Type} (h : IniEvent → σ → Bool × σ) :
    List IniEvent → σ → Bool × σ
  | [], u => (true, u)
  | e :: es, u =>
    let r := h e u
    if r.1 then foldHandler h es r.2 else (false, r.2)

/-- The sequence of booleans returned by the successive handler
invocations of a dispatch run (stopping after the first `false`): one
entry per invocation. -/
def iniDispatchTrace {σ : Type} (h : IniEvent → σ → Bool × σ) :
    List IniEvent → σ → List Bool
  | [], _ => []
  | e :: es, u =>
    let r := h e u
    if r.1 then true :: iniDispatchTrace h es r.2 else [false]

/-- A handler wrapped so that its `userdata` also counts its own
invocations: the second state component increments on every call. -/
def countHandler {σ : Type} (h : IniEvent → σ → Bool × σ) :
    IniEvent → σ × Nat → Bool × (σ × Nat) :=
  fun e p =>
    let r := h e p.1
    (r.1, (r.2, p.2 + 1))

/-- Two byte strings differ at most in ASCII letter case. -/
def CaseEq (a b : List Char) : Prop :=
  a.map ini_tolower = b.map ini_tolower

instance (a b : List Char) : Decidable (CaseEq a b) :=
  inferInstanceAs (Decidable (_ = _))

/-! Helper lemmas about the list combinators used by the model. -/

theorem takeWhileUpTo_eq (p : Char → Bool) :
    ∀ (n : Nat) (l : List Char), takeWhileUpTo p n l = (l.takeWhile p).take n := by
  intro n l
  induction l generalizing n with
  | nil => simp [takeWhileUpTo]
  | cons c t ih =>
    rcases n with _ | m
    · by_cases h : p c <;> simp [takeWhileUpTo, List.takeWhile_cons, h]
    · by_cases h : p c <;> simp [takeWhileUpTo, List.takeWhile_cons, h, ih]

theorem drop_length_takeWhile (p : Char → Bool) :
    ∀ l : List Char, l.drop (l.takeWhile p).length = l.dropWhile p := by
  intro l
  induction l with
  | nil => rfl
  | cons c t ih =>
    by_cases h : p c <;> simp [List.takeWhile_cons, List.dropWhile_cons, h, ih]

theorem dropWhile_idem (p : Char → Bool) :
    ∀ l : List Char, (l.dropWhile p).dropWhile p = l.dropWhile p := by
  intro l
  induction l with
  | nil => rfl
  | cons c t ih =>
    by_cases h : p c <;> simp [List.dropWhile_cons, h, ih]

theorem trim_dropWhile (l : List Char) :
    trimWhitespace (l.dropWhile ini_isspace) = trimWhitespace l := by
  unfold trimWhitespace
  rw [dropWhile_idem]

theorem takeWhile_congr {p q : Char → Bool} :
    ∀ l : List Char, (∀ c ∈ l, p c = q c) → l.takeWhile p = l.takeWhile q := by
  intro l
  induction l with
  | nil => intro _; rfl
  | cons c t ih =>
    intro h
    rw [List.takeWhile_cons _ _ _, List.takeWhile_cons _ _ _, h c (by simp)]
    by_cases hq : q c
    · simp [hq, ih (fun d hd => h d (by simp [hd]))]
    · simp [hq]

theorem takeWhile_append_all {p : Char → Bool} {xs ys : List Char}
    (h : ∀ c ∈ xs, p c = true) : (xs ++ ys).takeWhile p = xs ++ ys.takeWhile p := by
  have hx : xs.takeWhile p = xs := List.takeWhile_eq_self_iff.mpr h
  rw [List.takeWhile_append, hx]
  simp

theorem dropWhile_append_all {p : Char → Bool} {xs ys : List Char}
    (h : ∀ c ∈ xs, p c = true) : (xs ++ ys).dropWhile p = ys.dropWhile p := by
  have hx : xs.dropWhile p = [] := List.dropWhile_eq_nil_iff.mpr h
  rw [List.dropWhile_append, hx]
  simp

theorem getLast?_cons_eq {α : Type} (a : α) :
    ∀ l : List α,
      (a :: l).getLast? = match l.getLast? with | none => some a | some x => some x := by
  intro l
  induction l generalizing a with
  | nil => rfl
  | cons b t ih =>
    rw [List.getLast?_cons_cons, ih b]
    rcases h : t.getLast? with _ | x <;> simp [h]

/-- The flag returned by the builder loop is `has_valid_entries` at entry,
or-ed with the existence of structural content in the remaining lines. -/
theorem buildLoop_flag :
    ∀ (fuel : Nat) (ptr : List Char) (sections : List INISection) (hasCur hasValid : Bool),
      (iniBuildLoop fuel ptr sections hasCur hasValid).2
        = (hasValid || hasStructural hasCur (iniLines fuel ptr)) := by
  intro fuel
  induction fuel with
  | zero => intro ptr sections hasCur hasValid; simp [iniBuildLoop, iniLines, hasStructural]
  | succ f ih =>
    intro ptr sections hasCur hasValid
    rcases ptr with _ | ⟨c, t⟩
    · simp [iniBuildLoop, iniLines, hasStructural]
    · by_cases hc : c = '\x00'
      · simp [iniBuildLoop, iniLines, hasStructural, hc]
      · rcases hp : parseLine (iniExtractLine (c :: t)).1 with _ | name | ⟨key, value⟩ | _ | _
        · simp [iniBuildLoop, iniLines, hasStructural, hc, hp, ih]
        · simp [iniBuildLoop, iniLines, hasStructural, hc, hp, ih]
        · by_cases hcur : hasCur <;>
            simp [iniBuildLoop, iniLines, hasStructural, hc, hp, hcur, ih]
        · simp [iniBuildLoop, iniLines, hasStructural, hc, hp, ih]
        · simp [iniBuildLoop, iniLines, hasStructural, hc, hp, ih]

/-- The dispatch loop is the fold of the handler over the event sequence. -/
theorem streamLoop_foldHandler {σ : Type} (h : IniEvent → σ → Bool × σ) :
    ∀ (fuel : Nat) (ptr curSec : List Char) (u : σ),
      iniStreamLoop h fuel ptr curSec u = foldHandler h (iniStreamEvents fuel ptr curSec) u := by
  intro fuel
  induction fuel with
  | zero => intro ptr curSec u; rfl
  | succ f ih =>
    intro ptr curSec u
    rcases ptr with _ | ⟨c, t⟩
    · rfl
    · by_cases hraw : (iniStreamExtract (c :: t)).1 = []
      · simp [iniStreamLoop, iniStreamEvents, hraw, ih]
      · rcases hp : parseLine ((iniStreamExtract (c :: t)).1.take (INI_MAX_LINE_LENGTH - 1))
          with _ | name | ⟨key, value⟩ | _ | _ <;>
          simp [iniStreamLoop, iniStreamEvents, hraw, hp, foldHandler, ih]

/-- If the trace of a run over an event list is `N` continues followed by
one abort, then the counted fold aborts with exactly `N + 1` invocations
added to the counter. -/
theorem foldHandler_count_abort {σ : Type} (h : IniEvent → σ → Bool × σ) :
    ∀ (es : List IniEvent) (u : σ) (n N : Nat),
      iniDispatchTrace h es u = List.replicate N true ++ [false] →
      ∃ u', foldHandler (countHandler h) es (u, n) = (false, (u', n + N + 1)) := by
  intro es
  induction es with
  | nil =>
    intro u n N hN
    simp [iniDispatchTrace] at hN
  | cons e es ih =>
    intro u n N hN
    rcases hr : (h e u).1 with _ | _
    · simp [iniDispatchTrace, hr] at hN
      have hN0 : N = 0 := by omega
      subst hN0
      refine ⟨(h e u).2, ?_⟩
      simp [foldHandler, countHandler, hr]
    · simp [iniDispatchTrace, hr] at hN
      rcases N with _ | M
      · simp at hN
      · rw [List.replicate_succ] at hN
        simp at hN
        obtain ⟨u', hu⟩ := ih (h e u).2 (n + 1) M hN
        refine ⟨u', ?_⟩
        have he : n + (M + 1) + 1 = n + 1 + M + 1 := by omega
        rw [he]
        simp [foldHandler, countHandler, hr, hu]

/-- The key/value walk of `ini_getValue` returns the last matching node's
value, truncated; `acc` when no node matches. -/
theorem getValueKVs_eq (key : List Char) (maxLen : Nat) :
    ∀ (kvs : List INIKeyValue) (acc : Option (List Char)),
      iniGetValueKVs kvs key maxLen acc =
        match (kvs.filter fun kv => strCaseEq kv.key key).getLast? with
        | none => acc
        | some kv => some (kv.value.take (maxLen - 1)) := by
  intro kvs
  induction kvs with
  | nil => intro acc; rfl
  | cons kv rest ih =>
    intro acc
    by_cases hp : strCaseEq kv.key key = true
    · rw [show iniGetValueKVs (kv :: rest) key maxLen acc
          = iniGetValueKVs rest key maxLen (some (kv.value.take (maxLen - 1)))
        from by simp [iniGetValueKVs, hp]]
      rw [ih, @List.filter_cons_of_pos _ (fun kv' => strCaseEq kv'.key key) kv rest hp,
        getLast?_cons_eq]
      rcases hl : (rest.filter fun kv => strCaseEq kv.key key).getLast? with _ | kv' <;>
        simp [hl]
    · rw [show iniGetValueKVs (kv :: rest) key maxLen acc
          = iniGetValueKVs rest key maxLen acc from by simp [iniGetValueKVs, hp]]
      rw [ih, @List.filter_cons_of_neg _ (fun kv' => strCaseEq kv'.key key) kv rest hp]

/-- The section walk of `ini_getValue` consults only the first section
whose name matches. -/
theorem getValueSections_eq (sec key : List Char) (maxLen : Nat) :
    ∀ sections : List INISection,
      iniGetValueSections sections sec key maxLen =
        match sections.find? (fun s => strCaseEq s.name sec) with
        | none => none
        | some s =>
          match (s.keyValues.filter fun kv => strCaseEq kv.key key).getLast? with
          | none => none
          | some kv => some (kv.value.take (maxLen - 1)) := by
  intro sections
  induction sections with
  | nil => rfl
  | cons s rest ih =>
    by_cases hp : strCaseEq s.name sec = true
    · simp [iniGetValueSections, hp, List.find?_cons_of_pos, getValueKVs_eq]
    · simp only [iniGetValueSections, hp, if_false, Bool.false_eq_true]
      rw [ih, @List.find?_cons_of_neg _ (fun s' => strCaseEq s'.name sec) s rest hp]

theorem hasSectionList_eq (sec : List Char) :
    ∀ sections : List INISection,
      iniHasSectionList sections sec = sections.any (fun s => strCaseEq s.name sec) := by
  intro sections
  induction sections with
  | nil => rfl
  | cons s rest ih =>
    by_cases hp : strCaseEq s.name sec = true <;> simp [iniHasSectionList, hp, ih]

theorem hasKeyKVs_eq (key : List Char) :
    ∀ kvs : List INIKeyValue,
      iniHasKeyKVs kvs key = kvs.any (fun kv => strCaseEq kv.key key) := by
  intro kvs
  induction kvs with
  | nil => rfl
  | cons kv rest ih =>
    by_cases hp : strCaseEq kv.key key = true <;> simp [iniHasKeyKVs, hp, ih]

theorem hasKeySections_eq (sec key : List Char) :
    ∀ sections : List INISection,
      iniHasKeySections sections sec key =
        match sections.find? (fun s => strCaseEq s.name sec) with
        | none => false
        | some s => s.keyValues.any (fun kv => strCaseEq kv.key key) := by
  intro sections
  induction sections with
  | nil => rfl
  | cons s rest ih =>
    by_cases hp : strCaseEq s.name sec = true
    · simp [iniHasKeySections, hp, List.find?_cons_of_pos, hasKeyKVs_eq]
    · simp only [iniHasKeySections, hp, if_false, Bool.false_eq_true]
      rw [ih, @List.find?_cons_of_neg _ (fun s' => strCaseEq s'.name sec) s rest hp]

/-- `strCaseEq` cannot distinguish two second arguments that differ only
in ASCII letter case. -/
theorem strCaseEq_right_congr {a b : List Char} (h : CaseEq a b) (x : List Char) :
    strCaseEq x a = strCaseEq x b := by
  unfold strCaseEq
  rw [show a.map ini_tolower = b.map ini_tolower from h]

theorem isspace_ne_nul {c : Char} (h : ini_isspace c = true) : (c != '\x00') = true := by
  simp only [bne_iff_ne, ne_eq]
  intro he
  subst he
  exact absurd h (by decide)

theorem not_sep_pred (c : Char) (h1 : c ≠ ']') (h2 : c ≠ '\n') :
    (!(c == ']' || c == '\n')) = true := by
  simp [h1, h2]

theorem dropWhile_head_false {p : Char → Bool} :
    ∀ (l : List Char) {c : Char} {t : List Char}, l.dropWhile p = c :: t → p c = false := by
  intro l
  induction l with
  | nil => intro c t h; exact absurd h (by simp)
  | cons a l ih =>
    intro c t h
    by_cases hpa : p a = true
    · rw [List.dropWhile_cons, if_pos hpa] at h
      exact ih h
    · rw [List.dropWhile_cons, if_neg hpa] at h
      obtain ⟨rfl, -⟩ := List.cons.inj h
      simpa using hpa

/-! The claims. -/

/-- C1 (counterexample): the buffer `k=v` is non-empty and its single
logical line is classified as KEY_VALUE, yet ini_initialize fails: a
key/value line before any section header is parsed but discarded, so it
does not make the document valid.  This refutes the claim as stated. -/
theorem C1_counterexample :
    (['k', '=', 'v'] : List Char) ≠ []
    ∧ iniBuildLines ['k', '=', 'v'] = [['k', '=', 'v']]
    ∧ parseLine ['k', '=', 'v'] = .KEY_VALUE ['k'] ['v']
    ∧ ( ini_initialize ⟨none, []⟩ ['k', '=', 'v']).1 = false := by
  refine ⟨by decide, by decide, by decide, by decide⟩

/-- C1 (amended): for every input buffer containing at least one line
classified as a section header, or a key/value line that is attachable
(it appears after a section-header line), ini_initialize succeeds. -/
theorem C1_build_succeeds (ctx : INIContext) (content : List Char)
    (h : hasStructural false (iniBuildLines content) = true) :
    ( ini_initialize ctx content).1 = true := by
  have hne : content ≠ [] := by
    intro he
    rw [he] at h
    simp [iniBuildLines, iniLines, hasStructural] at h
  have hflag : (iniBuildLoop content.length content [] false false).2 = true := by
    rw [buildLoop_flag]
    simpa [iniBuildLines] using h
  simp [ ini_initialize, hne, hflag]

/-- Witness for C1: a buffer with a section header and one key/value. -/
theorem C1_build_succeeds_witness :
    hasStructural false (iniBuildLines ['[', 'a', ']', '\n', 'k', '=', 'v']) = true
    ∧ ( ini_initialize ⟨none, []⟩ ['[', 'a', ']', '\n', 'k', '=', 'v']).1 = true :=
  ⟨by decide, C1_build_succeeds ⟨none, []⟩ ['[', 'a', ']', '\n', 'k', '=', 'v'] (by decide)⟩

/-- C2: ini_initialize fails exactly when the buffer is empty or when no
line produced a SECTION or an attachable KEY_VALUE (a key/value line
before any section header does not count); on failure over a non-empty
buffer the resulting context is the fully released empty context, never a
partially built document. -/
theorem C2_build_failure_iff (ctx : INIContext) (content : List Char) :
    (( ini_initialize ctx content).1 = false
      ↔ (content = [] ∨ hasStructural false (iniBuildLines content) = false))
    ∧ (content ≠ [] → ( ini_initialize ctx content).1 = false →
        ( ini_initialize ctx content).2 = { content := none, sections := [] }) := by
  by_cases hne : content = []
  · refine ⟨?_, ?_⟩
    · rw [hne]
      simp [ ini_initialize]
    · intro hx
      exact absurd hne hx
  · have hflag : (iniBuildLoop content.length content [] false false).2
        = hasStructural false (iniBuildLines content) := by
      rw [buildLoop_flag]
      simp [iniBuildLines]
    rcases hs : hasStructural false (iniBuildLines content) with _ | _
    · rw [hs] at hflag
      refine ⟨?_, ?_⟩
      · simp [ ini_initialize, hne, hflag, hs]
      · intro _ _
        simp [ ini_initialize, hne, hflag, ini_cleanup]
    · rw [hs] at hflag
      refine ⟨?_, ?_⟩
      · simp [ ini_initialize, hne, hflag, hs]
      · intro _ hfail
        exfalso
        simp [ ini_initialize, hne, hflag] at hfail

/-- Witness for C2: a non-empty buffer with a single INVALID line fails
and leaves the empty context. -/
theorem C2_build_failure_iff_witness :
    (( ini_initialize ⟨none, []⟩ ['x']).1 = false
      ↔ ((['x'] : List Char) = [] ∨ hasStructural false (iniBuildLines ['x']) = false))
    ∧ ( ini_initialize ⟨none, []⟩ ['x']).2 = { content := none, sections := [] } :=
  ⟨(C2_build_failure_iff ⟨none, []⟩ ['x']).1,
   (C2_build_failure_iff ⟨none, []⟩ ['x']).2 (by decide) (by decide)⟩

set_option maxRecDepth 4000 in
/-- C5 (code evidence): on a 300-character line the builder's extraction
loop produces a logical line of `INI_MAX_LINE_LENGTH` = 256 characters,
which together with its NUL terminator occupies 257 bytes — one more than
the 256-byte `line` buffer of ini_initialize (the store `line[len]` with
`len == 256` is out of bounds), so the builder does not bound lines to the
cap-including-terminator; the stream dispatcher caps the copied text at
`INI_MAX_LINE_LENGTH - 1` characters, as claimed. -/
theorem C5_builder_line_cap_off_by_one :
    ((iniExtractLine (List.replicate 300 'a')).1).length = INI_MAX_LINE_LENGTH
    ∧ INI_MAX_LINE_LENGTH - 1 < ((iniExtractLine (List.replicate 300 'a')).1).length
    ∧ (((iniStreamExtract (List.replicate 300 'a')).1).take (INI_MAX_LINE_LENGTH - 1)).length
        = INI_MAX_LINE_LENGTH - 1 := by
  refine ⟨by decide, by decide, by decide⟩

/-- C7: on the empty buffer the stream dispatcher completes (result
`true`) with zero callback invocations (state and invocation counter
untouched, empty event sequence, empty trace), while ini_initialize on
the same input fails. -/
theorem C7_empty_buffer_divergence {σ : Type} (h : IniEvent → σ → Bool × σ)
    (u : σ) (ctx : INIContext) :
    ini_parse_stream ([] : List Char) h u = (true, u)
    ∧ ini_parse_stream ([] : List Char) (countHandler h) (u, 0) = (true, (u, 0))
    ∧ iniEventsOf ([] : List Char) = []
    ∧ iniDispatchTrace h (iniEventsOf ([] : List Char)) u = []
    ∧ ( ini_initialize ctx []).1 = false :=
  ⟨rfl, rfl, rfl, rfl, rfl⟩

/-- C9: `ini_cleanup` leaves a context with no sections and no content, a
second `ini_cleanup` is a no-op on the already-released context, and
applying it to the context produced by any ini_initialize call —
including a failed construction — gives the same released state. -/
theorem C9_cleanup_idempotent (ctx : INIContext) (content : List Char) :
    (ini_cleanup ctx).sections = [] ∧ (ini_cleanup ctx).content = none
    ∧ ini_cleanup (ini_cleanup ctx) = ini_cleanup ctx
    ∧ ini_cleanup (( ini_initialize ctx content).2) = ini_cleanup ctx :=
  ⟨rfl, rfl, rfl, rfl⟩

/-- C4: `ini_getValue` resolves the section by the first name match in
document order (`List.find?`; later duplicate-named sections are never
consulted), returns within it the value of the last-inserted matching
pair, truncated to at most `maxLen - 1` characters (the `strncpy` into the
caller's buffer followed by a forced terminator at index `maxLen - 1`),
and every returned value fits that bound. -/
theorem C4_getValue_first_section_last_key (ctx : INIContext) (sec key : List Char)
    (maxLen : Nat) (hm : 0 < maxLen) :
    ini_getValue ctx sec key maxLen =
      (match ctx.sections.find? (fun s => strCaseEq s.name sec) with
       | none => none
       | some s =>
         match (s.keyValues.filter fun kv => strCaseEq kv.key key).getLast? with
         | none => none
         | some kv => some (kv.value.take (maxLen - 1)))
    ∧ (∀ v, ini_getValue ctx sec key maxLen = some v → v.length ≤ maxLen - 1) := by
  have hm' : ¬maxLen = 0 := by omega
  have hmain : ini_getValue ctx sec key maxLen =
      (match ctx.sections.find? (fun s => strCaseEq s.name sec) with
       | none => none
       | some s =>
         match (s.keyValues.filter fun kv => strCaseEq kv.key key).getLast? with
         | none => none
         | some kv => some (kv.value.take (maxLen - 1))) := by
    simp only [ini_getValue, hm', if_false]
    rw [getValueSections_eq]
  refine ⟨hmain, ?_⟩
  intro v hv
  rw [hmain] at hv
  rcases h1 : ctx.sections.find? (fun s => strCaseEq s.name sec) with _ | s <;>
    rw [h1] at hv <;> simp only [] at hv
  · exact absurd hv (by simp)
  · rcases h2 : (s.keyValues.filter fun kv => strCaseEq kv.key key).getLast? with _ | kv <;>
      rw [h2] at hv <;> simp only [] at hv
    · exact absurd hv (by simp)
    · have hveq : v = kv.value.take (maxLen - 1) := by
        simpa using hv.symm
      subst hveq
      simp only [List.length_take]
      omega

/-- Witness for C4: two sections named `s`, the first holding duplicate
keys `k`; querying `S`/`K` with capacity 4 returns the last value of the
first section truncated to 3 characters. -/
theorem C4_getValue_witness :
    (0 : Nat) < 4
    ∧ ini_getValue ⟨none, [⟨['s'], [⟨['k'], ['a']⟩, ⟨['k'], ['b', 'c', 'd', 'e']⟩]⟩,
        ⟨['s'], [⟨['k'], ['z']⟩]⟩]⟩ ['S'] ['K'] 4 = some ['b', 'c', 'd'] :=
  ⟨by decide,
   (C4_getValue_first_section_last_key
      ⟨none, [⟨['s'], [⟨['k'], ['a']⟩, ⟨['k'], ['b', 'c', 'd', 'e']⟩]⟩,
        ⟨['s'], [⟨['k'], ['z']⟩]⟩]⟩ ['S'] ['K'] 4 (by decide)).1.trans (by decide)⟩

/-- C6: if the callback's decision trace over the buffer's event sequence
is `N - 1` continues followed by one abort (i.e. the callback returns
`false` on its `N`-th invocation), then `ini_parse_stream` returns the
aborted result `false` and the callback was invoked exactly `N` times (the
invocation counter carried beside the userdata ends at `N`), regardless of
how much input remains after that line. -/
theorem C6_stream_abort {σ : Type} (content : List Char) (h : IniEvent → σ → Bool × σ)
    (u : σ) (N : Nat) (hpos : 0 < N)
    (ht : iniDispatchTrace h (iniEventsOf content) u
      = List.replicate (N - 1) true ++ [false]) :
    ∃ u', ini_parse_stream content (countHandler h) (u, 0) = (false, (u', N)) := by
  obtain ⟨u', hu⟩ := foldHandler_count_abort h (iniEventsOf content) u 0 (N - 1) ht
  refine ⟨u', ?_⟩
  have he : 0 + (N - 1) + 1 = N := by omega
  rw [he] at hu
  unfold ini_parse_stream
  rw [streamLoop_foldHandler]
  exact hu

/-- Witness for C6: on `[a]\nk=v\nx=y` a callback that continues once and
then aborts is invoked exactly twice and the dispatch aborts, leaving the
third line unseen. -/
theorem C6_stream_abort_witness :
    (0 : Nat) < 2
    ∧ iniDispatchTrace (fun (_ : IniEvent) (n : Nat) => (decide (n < 1), n + 1))
        (iniEventsOf ['[', 'a', ']', '\n', 'k', '=', 'v', '\n', 'x', '=', 'y']) 0
      = List.replicate (2 - 1) true ++ [false]
    ∧ ∃ u', ini_parse_stream ['[', 'a', ']', '\n', 'k', '=', 'v', '\n', 'x', '=', 'y']
        (countHandler (fun (_ : IniEvent) (n : Nat) => (decide (n < 1), n + 1))) (0, 0)
      = (false, (u', 2)) :=
  ⟨by decide, by decide,
   C6_stream_abort ['[', 'a', ']', '\n', 'k', '=', 'v', '\n', 'x', '=', 'y']
     (fun (_ : IniEvent) (n : Nat) => (decide (n < 1), n + 1)) 0 2 (by decide) (by decide)⟩

/-- C8: under the default configuration all name and key comparisons fold
ASCII case byte-wise, so query strings differing only in ASCII letter case
give equal results for `ini_hasSection`, `ini_hasKey`, `ini_hasValue` and
`ini_getValue`, on every context. -/
theorem C8_queries_case_insensitive (ctx : INIContext) (s1 s2 k1 k2 : List Char)
    (maxLen : Nat) (hs : CaseEq s1 s2) (hk : CaseEq k1 k2) :
    ini_hasSection ctx s1 = ini_hasSection ctx s2
    ∧ ini_hasKey ctx s1 k1 = ini_hasKey ctx s2 k2
    ∧ ini_hasValue ctx s1 k1 = ini_hasValue ctx s2 k2
    ∧ ini_getValue ctx s1 k1 maxLen = ini_getValue ctx s2 k2 maxLen := by
  have hfs : (fun s : INISection => strCaseEq s.name s1)
      = (fun s : INISection => strCaseEq s.name s2) :=
    funext fun s => strCaseEq_right_congr hs s.name
  have hfk : (fun kv : INIKeyValue => strCaseEq kv.key k1)
      = (fun kv : INIKeyValue => strCaseEq kv.key k2) :=
    funext fun kv => strCaseEq_right_congr hk kv.key
  have hgv : ∀ m : Nat, ini_getValue ctx s1 k1 m = ini_getValue ctx s2 k2 m := by
    intro m
    by_cases hm : m = 0
    · simp [ini_getValue, hm]
    · simp only [ini_getValue, hm, if_false]
      rw [getValueSections_eq, getValueSections_eq]
      simp only [hfs, hfk]
  refine ⟨?_, ?_, ?_, hgv maxLen⟩
  · simp only [ini_hasSection]
    rw [hasSectionList_eq, hasSectionList_eq]
    simp only [hfs]
  · simp only [ini_hasKey]
    rw [hasKeySections_eq, hasKeySections_eq]
    simp only [hfs, hfk]
  · simp only [ini_hasValue]
    rw [hgv INI_MAX_LINE_LENGTH]

/-- Witness for C8: `[Sec]` was declared; querying `SEC` and `sec` agree
(and succeed). -/
theorem C8_queries_case_insensitive_witness :
    CaseEq ['S', 'E', 'C'] ['s', 'e', 'c']
    ∧ CaseEq ['K'] ['k']
    ∧ ini_hasSection ⟨none, [⟨['S', 'e', 'c'], [⟨['k'], ['v']⟩]⟩]⟩ ['S', 'E', 'C'] = true
    ∧ ini_hasSection ⟨none, [⟨['S', 'e', 'c'], [⟨['k'], ['v']⟩]⟩]⟩ ['S', 'E', 'C']
      = ini_hasSection ⟨none, [⟨['S', 'e', 'c'], [⟨['k'], ['v']⟩]⟩]⟩ ['s', 'e', 'c'] :=
  ⟨by decide, by decide, by decide,
   (C8_queries_case_insensitive ⟨none, [⟨['S', 'e', 'c'], [⟨['k'], ['v']⟩]⟩]⟩
     ['S', 'E', 'C'] ['s', 'e', 'c'] ['K'] ['k'] INI_MAX_LINE_LENGTH
     (by decide) (by decide)).1⟩

/-- C10: a line whose first non-space character is `[` followed by a
bracket-free name with a non-empty trim and then `]` is classified SECTION
with that trimmed name, and everything after the first `]` is ignored:
`junk` is arbitrary. -/
theorem C10_section_trailing_ignored (ws name junk : List Char)
    (hws : ∀ c ∈ ws, ini_isspace c = true)
    (hname : ∀ c ∈ name, c ≠ ']' ∧ c ≠ '\n' ∧ c ≠ '\x00')
    (hlen : name.length ≤ INI_MAX_LINE_LENGTH - 1)
    (hne : trimWhitespace name ≠ []) :
    parseLine (ws ++ '[' :: (name ++ ']' :: junk)) = .SECTION (trimWhitespace name) := by
  have hnulws : ∀ c ∈ ws, (c != '\x00') = true := fun c hc => isspace_ne_nul (hws c hc)
  have hnulname : ∀ c ∈ name, (c != '\x00') = true := by
    intro c hc
    simpa using (hname c hc).2.2
  have h1 : (ws ++ '[' :: (name ++ ']' :: junk)).takeWhile (fun c => c != '\x00')
      = ws ++ '[' :: (name ++ ']' :: junk.takeWhile (fun c => c != '\x00')) := by
    rw [takeWhile_append_all hnulws, List.takeWhile_cons _ _ _,
      if_pos (show (('[' : Char) != '\x00') = true from by decide),
      takeWhile_append_all hnulname, List.takeWhile_cons _ _ _,
      if_pos (show (((']' : Char)) != '\x00') = true from by decide)]
  have h2 : (ws ++ '[' :: (name ++ ']' :: junk.takeWhile (fun c => c != '\x00'))).dropWhile
        ini_isspace
      = '[' :: (name ++ ']' :: junk.takeWhile (fun c => c != '\x00')) := by
    rw [dropWhile_append_all hws, List.dropWhile_cons]
    simp [show ini_isspace '[' = false from by decide]
  have h3 : (name ++ ']' :: junk.takeWhile (fun c => c != '\x00')).takeWhile
        (fun d => !(d == ']' || d == '\n'))
      = name := by
    rw [takeWhile_append_all (fun c hc => not_sep_pred c (hname c hc).1 (hname c hc).2.1),
      List.takeWhile_cons _ _ _,
      if_neg (show ¬((!((']' : Char) == ']' || (']' : Char) == '\n')) = true) from by decide)]
    simp
  simp only [parseLine]
  rw [h1, h2]
  simp only [h3]
  rw [List.drop_left]
  simp only [List.take_of_length_le hlen]
  simp [hne]

/-- Witness for C10: `" [sec] junk"` is accepted as section `sec` with the
trailing text ignored. -/
theorem C10_section_trailing_ignored_witness :
    (∀ c ∈ ([' '] : List Char), ini_isspace c = true)
    ∧ (∀ c ∈ (['s', 'e', 'c'] : List Char), c ≠ ']' ∧ c ≠ '\n' ∧ c ≠ '\x00')
    ∧ (['s', 'e', 'c'] : List Char).length ≤ INI_MAX_LINE_LENGTH - 1
    ∧ trimWhitespace ['s', 'e', 'c'] ≠ []
    ∧ [' '] ++ '[' :: (['s', 'e', 'c'] ++ ']' :: [' ', 'j', 'u', 'n', 'k'])
      = [' ', '[', 's', 'e', 'c', ']', ' ', 'j', 'u', 'n', 'k']
    ∧ parseLine ([' '] ++ '[' :: (['s', 'e', 'c'] ++ ']' :: [' ', 'j', 'u', 'n', 'k']))
      = .SECTION (trimWhitespace ['s', 'e', 'c']) :=
  ⟨by decide, by decide, by decide, by decide, by decide,
   C10_section_trailing_ignored [' '] ['s', 'e', 'c'] [' ', 'j', 'u', 'n', 'k']
     (by decide) (by decide) (by decide) (by decide)⟩

/-- C3: on every logical line (no terminators or NULs, length within the
builder's per-line bound) `parseLine` computes exactly the algorithm the
claim states, `parseLineSpec`: section name = trimmed text before the
first `]` (INVALID when absent or empty after trimming), separator = first
`=` or `:` whichever comes first (INVALID when absent or the trimmed key
is empty), value = text after the separator trimmed only of surrounding
whitespace, keeping inline comment markers and later separators verbatim. -/
theorem C3_parseLine_algorithm (line : List Char)
    (hch : ∀ c ∈ line, c ≠ '\x00' ∧ c ≠ '\n' ∧ c ≠ '\r')
    (hlen : line.length ≤ INI_MAX_LINE_LENGTH) :
    parseLine line = parseLineSpec line := by
  have hcut : line.takeWhile (fun c => c != '\x00') = line :=
    List.takeWhile_eq_self_iff.mpr (fun c hc => by simpa using (hch c hc).1)
  simp only [parseLine, parseLineSpec, hcut]
  rcases hL : line.dropWhile ini_isspace with _ | ⟨c, rest⟩
  · rfl
  · have hsl : List.Sublist (c :: rest) line := hL ▸ List.dropWhile_sublist ini_isspace
    have hsub : ∀ d ∈ (c :: rest), d ∈ line := fun d hd => hsl.subset hd
    have hlen2 : (c :: rest).length ≤ line.length := hsl.length_le
    by_cases hc1 : c = ';' ∨ c = '#'
    · simp [hc1]
    · by_cases hc2 : c = '['
      · subst hc2
        simp only [if_neg hc1, if_pos rfl]
        have hcong : rest.takeWhile (fun d => !(d == ']' || d == '\n'))
            = rest.takeWhile (fun d => !(d == ']')) := by
          apply takeWhile_congr
          intro d hd
          have hdn : d ≠ '\n' := (hch d (hsub d (List.mem_cons_of_mem _ hd))).2.1
          simp [hdn]
        have hdropEq : rest.drop (rest.takeWhile (fun d => !(d == ']' || d == '\n'))).length
            = rest.dropWhile (fun d => !(d == ']')) := by
          rw [hcong, drop_length_takeWhile]
        by_cases hmem : ']' ∈ rest
        · have hne' : rest.dropWhile (fun d => !(d == ']')) ≠ [] := by
            intro hnil
            rw [List.dropWhile_eq_nil_iff] at hnil
            have := hnil ']' hmem
            simp at this
          rcases hd : rest.dropWhile (fun d => !(d == ']')) with _ | ⟨d, t⟩
          · exact absurd hd hne'
          · have hdval : d = ']' := by
              have := dropWhile_head_false rest hd
              simpa using this
            subst hdval
            rw [hdropEq, hd]
            simp only [hcong]
            have htake : (rest.takeWhile (fun d => !(d == ']'))).take (INI_MAX_LINE_LENGTH - 1)
                = rest.takeWhile (fun d => !(d == ']')) := by
              apply List.take_of_length_le
              have h1 : (rest.takeWhile (fun d => !(d == ']'))).length ≤ rest.length :=
                (List.takeWhile_sublist _).length_le
              simp only [List.length_cons, INI_MAX_LINE_LENGTH] at h1 hlen2 hlen ⊢
              omega
            rw [htake]
            simp [hmem]
        · have hnil : rest.dropWhile (fun d => !(d == ']')) = [] := by
            rw [List.dropWhile_eq_nil_iff]
            intro x hx
            have hxne : x ≠ ']' := fun he => hmem (he ▸ hx)
            simpa using hxne
          rw [hdropEq, hnil]
          simp [hmem]
      · simp only [if_neg hc1, if_neg hc2]
        by_cases hsep : ((c :: rest).takeWhile (fun d => !(d == '=' || d == ':'))).length
            = (c :: rest).length
        · have hnil : (c :: rest).drop
              ((c :: rest).takeWhile (fun d => !(d == '=' || d == ':'))).length = [] := by
            rw [hsep, List.drop_length]
          rw [hnil, if_pos hsep]
        · have hle : ((c :: rest).takeWhile (fun d => !(d == '=' || d == ':'))).length
              ≤ (c :: rest).length := (List.takeWhile_sublist _).length_le
          have hlt : ((c :: rest).takeWhile (fun d => !(d == '=' || d == ':'))).length
              < (c :: rest).length := lt_of_le_of_ne hle hsep
          rcases hd : (c :: rest).drop
              ((c :: rest).takeWhile (fun d => !(d == '=' || d == ':'))).length
            with _ | ⟨sep, afterSep⟩
          · exfalso
            have hld := List.length_drop
              ((c :: rest).takeWhile (fun d => !(d == '=' || d == ':'))).length (c :: rest)
            rw [hd] at hld
            simp only [List.length_nil] at hld
            omega
          · simp only []
            have hkp255 : ((c :: rest).takeWhile
                  (fun d => !(d == '=' || d == ':'))).take (INI_MAX_LINE_LENGTH - 1)
                = (c :: rest).takeWhile (fun d => !(d == '=' || d == ':')) := by
              apply List.take_of_length_le
              simp only [List.length_cons, INI_MAX_LINE_LENGTH] at hlt hlen2 hlen ⊢
              omega
            rw [hkp255]
            have hafter : (c :: rest).drop
                (((c :: rest).takeWhile (fun d => !(d == '=' || d == ':'))).length + 1)
                = afterSep := by
              rw [← List.drop_drop, hd]
              rfl
            have hmemAfter : ∀ d ∈ afterSep, d ∈ line := by
              intro d hdm
              apply hsub
              have hmem1 : d ∈ (c :: rest).drop
                  ((c :: rest).takeWhile (fun d => !(d == '=' || d == ':'))).length := by
                rw [hd]
                exact List.mem_cons_of_mem _ hdm
              exact (List.drop_sublist _ _).subset hmem1
            have hvtake : (afterSep.dropWhile ini_isspace).takeWhile
                  (fun d => !(d == '\r' || d == '\n'))
                = afterSep.dropWhile ini_isspace := by
              apply List.takeWhile_eq_self_iff.mpr
              intro d hdm
              have hd' : d ∈ line :=
                hmemAfter d ((List.dropWhile_sublist _).subset hdm)
              simp [(hch d hd').2.1, (hch d hd').2.2]
            have hvlen : (afterSep.dropWhile ini_isspace).length
                ≤ INI_MAX_LINE_LENGTH - 1 := by
              have h1 : (afterSep.dropWhile ini_isspace).length ≤ afterSep.length :=
                (List.dropWhile_sublist _).length_le
              have hld := List.length_drop
                ((c :: rest).takeWhile (fun d => !(d == '=' || d == ':'))).length (c :: rest)
              rw [hd] at hld
              simp only [List.length_cons, INI_MAX_LINE_LENGTH] at h1 hld hlen2 hlen ⊢
              omega
            have hvid : ((afterSep.dropWhile ini_isspace).takeWhile
                  (fun d => !(d == '\r' || d == '\n'))).take (INI_MAX_LINE_LENGTH - 1)
                = afterSep.dropWhile ini_isspace := by
              rw [hvtake]
              exact List.take_of_length_le hvlen
            rw [hvid, trim_dropWhile, if_neg hsep, hafter]

/-- Witness for C3: the line `" key = v "` satisfies the hypotheses and
both classifiers agree, producing key `key` and value `v`. -/
theorem C3_parseLine_algorithm_witness :
    (∀ c ∈ ([' ', 'k', 'e', 'y', ' ', '=', ' ', 'v', ' '] : List Char),
      c ≠ '\x00' ∧ c ≠ '\n' ∧ c ≠ '\r')
    ∧ ([' ', 'k', 'e', 'y', ' ', '=', ' ', 'v', ' '] : List Char).length ≤ INI_MAX_LINE_LENGTH
    ∧ parseLine [' ', 'k', 'e', 'y', ' ', '=', ' ', 'v', ' ']
      = parseLineSpec [' ', 'k', 'e', 'y', ' ', '=', ' ', 'v', ' ']
    ∧ parseLine [' ', 'k', 'e', 'y', ' ', '=', ' ', 'v', ' ']
      = .KEY_VALUE ['k', 'e', 'y'] ['v'] :=
  ⟨by decide, by decide,
   C3_parseLine_algorithm [' ', 'k', 'e', 'y', ' ', '=', ' ', 'v', ' '] (by decide) (by decide),
   by decide⟩
